import Mathlib

/-!
Shallow embedding of the `continous_adc` firmware core
(`src/main/continuous_read_main.c` and `src/main/trapfilter.h`).

Modelling conventions:
* `uint16_t` sample values are `ℕ`; the `int32_t` filter accumulator is `ℤ`
  (no theorem below depends on 32-bit wraparound, and every concrete
  evaluation stays far below `2^31`).
* `size_t` arithmetic wraps modulo `2^64`; this matters only in
  `export_circular_buffer`, where `current_wr - pre_samples` may underflow,
  and is modelled explicitly by `size_t_sub`.
* The circular buffer `circ_buf` is a total function `ℕ → ℕ`; a store is a
  pointwise update.  The C code fixes the capacity to
  `CIRC_BUF_SAMPLES = 32768 = 2^15`; the masking idiom `& (N-1)` only needs
  the capacity to be a power of two, so definitions take the capacity `N`
  as a parameter and theorems quantify over `N = 2^m`, instantiable at
  `2^15`.
* C functions that mutate through a pointer are embedded in state-passing
  style, returning the updated state next to the C return value.
-/

/-- Capacity of the application ring buffer (`#define CIRC_BUF_SAMPLES 32768`). -/
def CIRC_BUF_SAMPLES : ℕ := 32768

/-- `2^64`, the modulus of `size_t` arithmetic on the 64-bit host model. -/
def SIZE_T_MOD : ℕ := 2 ^ 64

/-- Wrapping `size_t` subtraction `a - b` (two's complement, modulo `2^64`). -/
def size_t_sub (a b : ℕ) : ℕ := (((a : ℤ) - (b : ℤ)) % (SIZE_T_MOD : ℤ)).toNat

/-- Pointwise store into the buffer model: `buf[i] = v`. -/
def bufSet (buf : ℕ → ℕ) (i v : ℕ) : ℕ → ℕ := fun j => if j = i then v else buf j

/-- One per-sample iteration of the frame-ingestion loop in `app_main`:
`circ_buf[local_wr_pos] = (uint16_t)raw_data; local_wr_pos = (local_wr_pos + 1) & CIRC_BUF_MASK;`.
The state is the pair (buffer contents, `local_wr_pos`). -/
def ringWrite (N : ℕ) (st : (ℕ → ℕ) × ℕ) (sample : ℕ) : (ℕ → ℕ) × ℕ :=
  (bufSet st.1 st.2 sample, (st.2 + 1) &&& (N - 1))

/-- Ingest a whole frame of samples, in order (the inner `for` loop of
`app_main`; the final cursor is what gets published back to `circ_buf_wr`). -/
def ringWriteMany (N : ℕ) (st : (ℕ → ℕ) × ℕ) (samples : List ℕ) : (ℕ → ℕ) × ℕ :=
  samples.foldl (ringWrite N) st

/-- Buffer state after the first `k` samples of the logical sample history
`h` have been ingested, starting from the zero-initialised static array
(`static uint16_t circ_buf[...]`) and `circ_buf_wr = 0`. -/
def bufAfter (N : ℕ) (h : ℕ → ℕ) (k : ℕ) : (ℕ → ℕ) × ℕ :=
  ringWriteMany N ((fun _ => 0), 0) ((List.range k).map h)

/-- The cursor value `local_wr_pos` reaches after `i` further store/advance
steps of the ingestion loop (store number `i` goes to slot `wrAfter N wr i`). -/
def wrAfter (N wr : ℕ) : ℕ → ℕ
  | 0 => wr
  | i + 1 => (wrAfter N wr i + 1) &&& (N - 1)

/-- `size_t start = (current_wr - pre_samples) & CIRC_BUF_MASK;` from
`export_circular_buffer` (the subtraction is wrapping `size_t` arithmetic). -/
def exportStart (N cur pre : ℕ) : ℕ := size_t_sub cur pre &&& (N - 1)

/-- `export_circular_buffer(out_buffer, pre_samples, total_samples)`:
after snapshotting `current_wr`, runs
`for (i = 0; i < total_samples && i < CIRC_BUF_SAMPLES; i++)
  out_buffer[i] = circ_buf[(start + i) & CIRC_BUF_MASK];`.
The result is the list of samples actually copied (the C function returns
`void` and has no error path; `out_buffer` entries beyond the copied range
are never written). -/
def export_circular_buffer (N : ℕ) (buf : ℕ → ℕ) (cur pre total : ℕ) : List ℕ :=
  (List.range (min total N)).map (fun i => buf ((exportStart N cur pre + i) &&& (N - 1)))

/-- The program state the ISR callbacks can observe or mutate: the ingestion
task's pending-notification count (the target of `vTaskNotifyGiveFromISR`)
plus the only counters in the program, the statistics accumulators
`s_voltage_sum` and `s_sample_count`.  There is no dropped-sample counter
variable anywhere in the source. -/
structure SharedState where
  notification : ℕ
  voltage_sum : ℕ
  sample_count : ℕ
deriving DecidableEq

/-- `s_conv_done_cb`: the conversion-done ISR callback; its entire effect is
`vTaskNotifyGiveFromISR(s_task_handle, &mustYield)`. -/
def s_conv_done_cb (st : SharedState) : SharedState :=
  { st with notification := st.notification + 1 }

/-- `s_pool_ovf_cb`: the pool-overflow ISR callback; its body is identical to
`s_conv_done_cb` — it only performs `vTaskNotifyGiveFromISR` (the comment in
the source notes that logging is impossible in ISR context and no flag or
counter is maintained). -/
def s_pool_ovf_cb (st : SharedState) : SharedState :=
  { st with notification := st.notification + 1 }

/-- `handle_trigger_capture(handle, pre_trigger_samples, post_trigger_samples)`
on the `!trigger_seen` path: the code waits a fixed wall-clock delay
(`vTaskDelay(pdMS_TO_TICKS(100))`), stops the ADC, and calls
`export_circular_buffer(export_buffer, pre, pre + post)`.
During the 100 ms delay the ingestion loop keeps running; the samples that
happen to arrive in that wall-clock window are environment-determined and
are modelled by the parameter `delayed` (the code never counts them).  The
result is the exported sample list. -/
def handle_trigger_capture (N : ℕ) (st : (ℕ → ℕ) × ℕ) (delayed : List ℕ)
    (pre post : ℕ) : List ℕ :=
  let st2 := ringWriteMany N st delayed
  export_circular_buffer N st2.1 st2.2 pre (pre + post)

/-- `trap_filter_t` from `trapfilter.h`. -/
structure trap_filter_t where
  filter_value : ℤ
  buffer_pos : ℕ
  samples_processed : ℕ
  initialized : Bool
deriving DecidableEq

/-- `trap_filter_init`: unconditionally resets the state; it takes no shape
parameters, performs no validation, and has no error path (`void`). -/
def trap_filter_init : trap_filter_t :=
  { filter_value := 0, buffer_pos := 0, samples_processed := 0, initialized := false }

/-- One backward step in the circular buffer:
`pos = (pos == 0) ? (buffer_size - 1) : (pos - 1);`. -/
def wrapDec (size pos : ℕ) : ℕ := if pos = 0 then size - 1 else pos - 1

/-- `filter_sum_step(buffer, buffer_size, &pos, filter_rate)`: sums
`filter_rate` samples walking backwards from `*pos`, leaving `*pos` at the
last position read.  Returned as (sum, final position). -/
def filter_sum_step (buffer : ℕ → ℕ) (size pos rate : ℕ) : ℤ × ℕ :=
  (List.range (rate - 1)).foldl
    (fun st _ =>
      let p := wrapDec size st.2
      (st.1 + (buffer p : ℤ), p))
    ((buffer pos : ℤ), pos)

/-- Iterated backward stepping, as in the three
`for (i = 0; i < shift; i++) work_pos = ...` loops of `trap_filter_step`
(`n` is the number of iterations actually performed; a negative C shift
runs the loop zero times). -/
def stepBack (size pos n : ℕ) : ℕ :=
  (List.range n).foldl (fun p _ => wrapDec size p) pos

/-- `trap_filter_step(filter, circ_buffer, buffer_size, current_write_pos)`
with filter shape `R = TRAP_FILTER_RATE`, `L = TRAP_FILTER_LENGTH`,
`G = TRAP_FILTER_GAP` (overridable preprocessor parameters, hence taken as
arguments).  Returns (C return value, updated filter state).
`filter_length_shift = L - R + 1` and `filter_gap_shift = G - R + 1` are C
`int`s, so they are computed in `ℤ` and clamp to zero loop iterations when
negative.  (The source also computes `filter_end_shift = 2L + G + 2R - 1`
but never uses it.) -/
def trap_filter_step (R L G : ℕ) (f : trap_filter_t) (buffer : ℕ → ℕ)
    (size pos : ℕ) : ℤ × trap_filter_t :=
  let filter_length_shift : ℤ := (L : ℤ) - (R : ℤ) + 1
  let filter_gap_shift : ℤ := (G : ℤ) - (R : ℤ) + 1
  if f.initialized = false then
    let s0 := filter_sum_step buffer size pos R
    (s0.1, { filter_value := s0.1, buffer_pos := pos,
             samples_processed := f.samples_processed, initialized := true })
  else
    let s1 := filter_sum_step buffer size pos R
    let v1 := f.filter_value + s1.1
    let p1 := stepBack size s1.2 filter_length_shift.toNat
    let s2 := filter_sum_step buffer size p1 R
    let v2 := v1 - s2.1
    let p2 := stepBack size s2.2 filter_gap_shift.toNat
    let s3 := filter_sum_step buffer size p2 R
    let v3 := v2 - s3.1
    let p3 := stepBack size s3.2 filter_length_shift.toNat
    let s4 := filter_sum_step buffer size p3 R
    let v4 := v3 + s4.1
    (v4, { filter_value := v4, buffer_pos := pos,
           samples_processed := f.samples_processed + 1, initialized := true })

/-- `trap_filter_get_normalized(filter)`: divides the running value by the
effective filter length `2 * TRAP_FILTER_LENGTH * TRAP_FILTER_RATE` using C
`int32_t` division (truncation toward zero, `Int.tdiv`).  The C function
only reads through its pointer, so the state component is returned
unchanged. -/
def trap_filter_get_normalized (R L : ℕ) (f : trap_filter_t) : ℤ × trap_filter_t :=
  (Int.tdiv f.filter_value (2 * (L : ℤ) * (R : ℤ)), f)

/-- Sum of `R` samples read backwards from logical position `p`, each index
reduced modulo the buffer size (the characterisation of `filter_sum_step`,
also the "R-sample sum" building block of the trapezoid). -/
def lobeSum (buffer : ℕ → ℕ) (size R : ℕ) (p : ℤ) : ℤ :=
  ∑ j ∈ Finset.range R, (buffer ((p - (j : ℤ)) % (size : ℤ)).toNat : ℤ)

/-- Modelled from the spec: the from-scratch ("brute-force") trapezoidal
combination of the raw buffer contents around position `p` — the recent
lobe (the `L` consecutive `R`-sample sums ending at `p`) minus the delayed
lobe (the `L` consecutive `R`-sample sums ending at `p - L - G`).  This is
the closed form whose per-position difference is exactly the four signed
`R`-sums applied by `trap_filter_step`. -/
def trap_brute (R L G : ℕ) (buffer : ℕ → ℕ) (size : ℕ) (p : ℤ) : ℤ :=
  (∑ q ∈ Finset.range L, lobeSum buffer size R (p - (q : ℤ)))
    - ∑ q ∈ Finset.range L, lobeSum buffer size R (p - (L : ℤ) - (G : ℤ) - (q : ℤ))

/-- A run of the filter against a fixed buffer: initialise at write position
`p0` (mod `size`), then perform `n` per-sample incremental updates, the
`i`-th at write position `p0 + i` (mod `size`), as the ingestion loop would
after each new sample.  Returns the final filter state. -/
def trap_run (R L G : ℕ) (buffer : ℕ → ℕ) (size p0 n : ℕ) : trap_filter_t :=
  (List.range n).foldl
    (fun f i => (trap_filter_step R L G f buffer size ((p0 + i + 1) % size)).2)
    (trap_filter_step R L G trap_filter_init buffer size (p0 % size)).2

/-! ### Basic bridging lemmas: masking, `size_t` wrap, modular stepping -/

theorem CIRC_BUF_SAMPLES_eq_two_pow : CIRC_BUF_SAMPLES = 2 ^ 15 := rfl

theorem bufSet_same (buf : ℕ → ℕ) (i v : ℕ) : bufSet buf i v i = v := by
  simp [bufSet]

theorem bufSet_ne (buf : ℕ → ℕ) (i v j : ℕ) (hne : j ≠ i) : bufSet buf i v j = buf j := by
  simp [bufSet, hne]

theorem mask_eq_mod (m x : ℕ) : x &&& (2 ^ m - 1) = x % 2 ^ m :=
  Nat.and_pow_two_sub_one_eq_mod x m

theorem ringWrite_mod (m : ℕ) (st : (ℕ → ℕ) × ℕ) (s : ℕ) :
    ringWrite (2 ^ m) st s = (bufSet st.1 st.2 s, (st.2 + 1) % 2 ^ m) := by
  simp [ringWrite, mask_eq_mod]

theorem Nat.two_pow_pos' (m : ℕ) : 0 < 2 ^ m := Nat.pos_pow_of_pos m (by omega)

theorem bufAfter_succ (N : ℕ) (h : ℕ → ℕ) (k : ℕ) :
    bufAfter N h (k + 1) = ringWrite N (bufAfter N h k) (h k) := by
  unfold bufAfter ringWriteMany
  rw [List.range_succ, List.map_append, List.foldl_append]
  rfl

theorem bufAfter_spec (m k : ℕ) (h : ℕ → ℕ) :
    (bufAfter (2 ^ m) h k).2 = k % 2 ^ m ∧
      ∀ j < min k (2 ^ m),
        (bufAfter (2 ^ m) h k).1 ((k - 1 - j) % 2 ^ m) = h (k - 1 - j) := by
  induction k with
  | zero =>
    constructor
    · simp [bufAfter, ringWriteMany]
    · intro j hj
      omega
  | succ k ih =>
    have hN : 0 < 2 ^ m := Nat.two_pow_pos' m
    rw [bufAfter_succ, ringWrite_mod]
    constructor
    · show ((bufAfter (2 ^ m) h k).2 + 1) % 2 ^ m = (k + 1) % 2 ^ m
      rw [ih.1]
      exact (Nat.mod_modEq k (2 ^ m)).add_right 1
    · intro j hj
      show bufSet (bufAfter (2 ^ m) h k).1 (bufAfter (2 ^ m) h k).2 (h k)
            ((k + 1 - 1 - j) % 2 ^ m) = h (k + 1 - 1 - j)
      rw [ih.1]
      rcases Nat.eq_zero_or_pos j with hj0 | hj1
      · subst hj0
        have : k + 1 - 1 - 0 = k := by omega
        rw [this, bufSet_same]
      · have hjk : j ≤ k := by omega
        have hidx : k + 1 - 1 - j = k - j := by omega
        rw [hidx]
        have hne : (k - j) % 2 ^ m ≠ k % 2 ^ m := by
          intro heq
          have hmod : k - j ≡ k [MOD 2 ^ m] := heq
          have hdvd : 2 ^ m ∣ k - (k - j) := (Nat.modEq_iff_dvd' (by omega)).mp hmod
          have hkj : k - (k - j) = j := by omega
          rw [hkj] at hdvd
          have : 2 ^ m ≤ j := Nat.le_of_dvd hj1 hdvd
          omega
        rw [bufSet_ne _ _ _ _ hne]
        have hj' : j - 1 < min k (2 ^ m) := by omega
        have := ih.2 (j - 1) hj'
        have hidx2 : k - 1 - (j - 1) = k - j := by omega
        rw [hidx2] at this
        exact this

/-- Claim C4: each per-sample write of the ingestion loop stores at the
current (masked) cursor and advances the cursor with the `& (N-1)` mask, so
wraparound is ordinary behaviour; after `k` writes of the history `h` the
cursor equals `k` masked, and for every `j < min k N` the `(j+1)`-th most
recent written value `h (k-1-j)` sits at the slot `(k-1-j) mod N`, i.e. at
offset `j+1` (masked) behind the current write position. -/
theorem ring_write_history (m k j : ℕ) (h : ℕ → ℕ) (hj : j < min k (2 ^ m)) :
    (bufAfter (2 ^ m) h k).2 = k % 2 ^ m ∧
      (bufAfter (2 ^ m) h k).1 ((k - 1 - j) % 2 ^ m) = h (k - 1 - j) :=
  ⟨(bufAfter_spec m k h).1, (bufAfter_spec m k h).2 j hj⟩

theorem ring_write_history_witness :
    3 < min 6 (2 ^ 2) ∧
      ((bufAfter (2 ^ 2) (fun t => t * 10) 6).2 = 6 % 2 ^ 2 ∧
        (bufAfter (2 ^ 2) (fun t => t * 10) 6).1 ((6 - 1 - 3) % 2 ^ 2)
          = (fun t => t * 10) (6 - 1 - 3)) :=
  ⟨by decide, ring_write_history 2 6 3 (fun t => t * 10) (by decide)⟩

theorem ringWriteMany_wr_lt (N : ℕ) (hN : 0 < N) :
    ∀ (frame : List ℕ) (buf : ℕ → ℕ) (wr : ℕ), wr < N →
      (ringWriteMany N (buf, wr) frame).2 < N := by
  intro frame
  induction frame with
  | nil => intro buf wr hwr; exact hwr
  | cons s rest ih =>
    intro buf wr hwr
    show (ringWriteMany N (ringWrite N (buf, wr) s) rest).2 < N
    exact ih _ _ (Nat.lt_of_le_of_lt Nat.and_le_right (by omega))

/-- Claim C10: if the published cursor is in range, every cursor value the
ingestion loop produces stays strictly below `CIRC_BUF_SAMPLES` (it is
re-masked on every advance, so each per-sample store index `wrAfter N wr i`
and the value published back to `circ_buf_wr` are in bounds), and every
index the export copy reads is masked and hence in bounds. -/
theorem circ_buf_indices_in_bounds (N wr : ℕ) (buf : ℕ → ℕ) (frame : List ℕ)
    (hN : 0 < N) (hwr : wr < N) :
    (∀ i, wrAfter N wr i < N) ∧
      (ringWriteMany N (buf, wr) frame).2 < N ∧
      ∀ cur pre i, (exportStart N cur pre + i) &&& (N - 1) < N := by
  refine ⟨?_, ringWriteMany_wr_lt N hN frame buf wr hwr, ?_⟩
  · intro i
    cases i with
    | zero => exact hwr
    | succ i => exact Nat.lt_of_le_of_lt Nat.and_le_right (by omega)
  · intro cur pre i
    exact Nat.lt_of_le_of_lt Nat.and_le_right (by omega)

theorem circ_buf_indices_in_bounds_witness :
    0 < 4 ∧ 2 < 4 ∧ (ringWriteMany 4 ((fun _ => 0), 2) [5, 6, 7]).2 < 4 :=
  ⟨by decide, by decide,
    (circ_buf_indices_in_bounds 4 2 (fun _ => 0) [5, 6, 7] (by decide) (by decide)).2.1⟩

/-- Counterexample to claim C2: on a capacity-4 buffer holding `0,1,2,3`
(write cursor back at 0), a request for `pre = 2`, `total = 6 > 4` samples
does not fail — `export_circular_buffer` has no error path at all — and
silently copies only `min 6 4 = 4` samples. -/
theorem export_oversized_no_error_cex :
    export_circular_buffer 4 (bufAfter 4 (fun t => t) 4).1
        (bufAfter 4 (fun t => t) 4).2 2 6 = [2, 3, 0, 1] ∧
      ¬ (export_circular_buffer 4 (bufAfter 4 (fun t => t) 4).1
          (bufAfter 4 (fun t => t) 4).2 2 6).length = 6 := by
  constructor
  · decide
  · decide

/-- Claim C2 amended: an oversized export request (`pre + post > N`) is not
rejected and reports nothing; the copy loop's `i < CIRC_BUF_SAMPLES` guard
silently truncates the copy to `min total N` samples, behaving exactly like
a request for `min total N` samples. -/
theorem export_truncates_to_capacity (N : ℕ) (buf : ℕ → ℕ) (cur pre total : ℕ) :
    export_circular_buffer N buf cur pre total
        = export_circular_buffer N buf cur pre (min total N) ∧
      (export_circular_buffer N buf cur pre total).length = min total N := by
  constructor
  · unfold export_circular_buffer
    rw [min_assoc, min_self]
  · simp [export_circular_buffer]

/-- Counterexample to claim C7: the pool-overflow callback is not
distinguishable from the conversion-done callback — on the same shared
state both perform exactly the same task notification, and neither of the
program's only counters (`s_voltage_sum`, `s_sample_count`) records the
drop; no dropped-sample counter exists in the source. -/
theorem pool_ovf_eq_conv_done_cex :
    s_pool_ovf_cb ⟨5, 7, 9⟩ = s_conv_done_cb ⟨5, 7, 9⟩ ∧
      (s_pool_ovf_cb ⟨5, 7, 9⟩).sample_count = 9 := by
  constructor
  · rfl
  · rfl

/-- Claim C7 amended: a pool-overflow notification is handled identically to
a data-ready notification — `s_pool_ovf_cb` only wakes the ingestion task,
its observable effect coincides with `s_conv_done_cb` on every state, and
no counter of any kind is updated. -/
theorem pool_ovf_indistinguishable (st : SharedState) :
    s_pool_ovf_cb st = s_conv_done_cb st ∧
      (s_pool_ovf_cb st).voltage_sum = st.voltage_sum ∧
      (s_pool_ovf_cb st).sample_count = st.sample_count :=
  ⟨rfl, rfl, rfl⟩

/-- Claim C8: `trap_filter_get_normalized` returns the running value divided
(C `int32_t` division, truncation toward zero) by the effective filter
length `2·L·R`, and leaves the filter state — in particular the
un-normalized accumulator — unchanged, so subsequent incremental updates
behave exactly as if normalization had never been requested. -/
theorem trap_filter_get_normalized_spec (R L G size pos : ℕ) (f : trap_filter_t)
    (buffer : ℕ → ℕ) :
    (trap_filter_get_normalized R L f).1
        = Int.tdiv f.filter_value (2 * (L : ℤ) * (R : ℤ)) ∧
      (trap_filter_get_normalized R L f).2 = f ∧
      trap_filter_step R L G (trap_filter_get_normalized R L f).2 buffer size pos
        = trap_filter_step R L G f buffer size pos :=
  ⟨rfl, rfl, rfl⟩

/-- Claim C5 (code bug, evaluated at the failing input): after a trigger on a
capacity-8 buffer holding `0..7` (cursor 0), with `pre = 2` and a configured
`post = 3`, the code merely waits a fixed 100 ms wall-clock delay — modelled
by the environment-chosen list of samples arriving during the delay, here
none — and then exports anyway: the export happens with 0 post-trigger
samples ingested, not 3, because no post-trigger sample counter exists. -/
theorem trigger_capture_delay_model_eval :
    handle_trigger_capture 8 (bufAfter 8 (fun t => t) 8) [] 2 3 = [6, 7, 0, 1, 2] ∧
      ¬ ([] : List ℕ).length = 3 := by
  constructor
  · decide
  · decide

/-- Counterexample to claim C6: with the invalid shape `R = 8, L = 4 < R`,
`G = 2` and a capacity `8 < 2L + G + 2R = 26`, construction does not produce
an error — `trap_filter_init` is a `void` reset with no parameters and no
error path — and the very first `trap_filter_step` happily initializes the
filter and returns a value. -/
theorem trap_filter_init_invalid_shape_cex :
    trap_filter_step 8 4 2 trap_filter_init (fun _ => 1) 8 0
      = (8, { filter_value := 8, buffer_pos := 0,
              samples_processed := 0, initialized := true }) := by
  decide

/-- Claim C6 amended: initialization performs no validation and cannot fail:
even when `L < R` and the capacity cannot hold `2L + G + 2R` samples of
history, `trap_filter_init` yields the ordinary reset state and the first
step marks the filter initialized and proceeds (the source even computes
the span `filter_end_shift = 2L + G + 2R - 1` but never uses it). -/
theorem trap_filter_init_no_validation (R L G size pos : ℕ) (buffer : ℕ → ℕ)
    (_hLR : L < R) (_hcap : size < 2 * L + G + 2 * R) :
    trap_filter_init.initialized = false ∧
      trap_filter_init.filter_value = 0 ∧
      (trap_filter_step R L G trap_filter_init buffer size pos).2.initialized = true := by
  refine ⟨rfl, rfl, ?_⟩
  simp [trap_filter_step, trap_filter_init]

theorem trap_filter_init_no_validation_witness :
    4 < 8 ∧ 8 < 2 * 4 + 2 + 2 * 8 ∧
      (trap_filter_init.initialized = false ∧
        trap_filter_init.filter_value = 0 ∧
        (trap_filter_step 8 4 2 trap_filter_init (fun _ => 0) 8 0).2.initialized = true) :=
  ⟨by decide, by decide,
    trap_filter_init_no_validation 8 4 2 8 0 (fun _ => 0) (by decide) (by decide)⟩

theorem emod_sub_congr (n a b : ℤ) : (a % n - b) % n = (a - b) % n := by
  conv_lhs => rw [Int.sub_emod, Int.emod_emod_of_dvd a dvd_rfl, ← Int.sub_emod]

theorem emod_add_congr (n a b : ℤ) : (a % n + b) % n = (a + b) % n := by
  conv_lhs => rw [Int.add_emod, Int.emod_emod_of_dvd a dvd_rfl, ← Int.add_emod]

theorem emod_toNat_lt (x : ℤ) (size : ℕ) (hs : 0 < size) : (x % (size : ℤ)).toNat < size := by
  have hpos : (0 : ℤ) < (size : ℤ) := by exact_mod_cast hs
  have h1 := Int.emod_lt_of_pos x hpos
  have h2 := Int.emod_nonneg x (ne_of_gt hpos)
  omega

theorem emod_toNat_cast (x : ℤ) (size : ℕ) (hs : 0 < size) :
    (((x % (size : ℤ)).toNat : ℕ) : ℤ) = x % (size : ℤ) := by
  have hpos : (0 : ℤ) < (size : ℤ) := by exact_mod_cast hs
  exact Int.toNat_of_nonneg (Int.emod_nonneg x (ne_of_gt hpos))

theorem wrapDec_spec (size pos : ℕ) (hs : 0 < size) (hpos : pos < size) :
    wrapDec size pos = (((pos : ℤ) - 1) % (size : ℤ)).toNat := by
  have hpos' : (0 : ℤ) < (size : ℤ) := by exact_mod_cast hs
  unfold wrapDec
  rcases Nat.eq_zero_or_pos pos with h0 | h1
  · subst h0
    simp only [if_pos rfl]
    have he : ((-1 : ℤ)) % (size : ℤ) = (size : ℤ) - 1 := by
      have ha : ((-1 : ℤ) + (size : ℤ) * 1) % (size : ℤ) = (-1 : ℤ) % (size : ℤ) :=
        Int.add_mul_emod_self_left (-1 : ℤ) (size : ℤ) 1
      have hb : ((-1 : ℤ) + (size : ℤ) * 1) = (size : ℤ) - 1 := by ring
      rw [hb] at ha
      rw [← ha]
      exact Int.emod_eq_of_lt (by omega) (by omega)
    norm_num
    rw [he]
    omega
  · rw [if_neg (by omega)]
    have he : ((pos : ℤ) - 1) % (size : ℤ) = (pos : ℤ) - 1 :=
      Int.emod_eq_of_lt (by omega) (by exact_mod_cast (by omega : (pos : ℤ) - 1 < (size : ℤ)))
    rw [he]
    omega

theorem stepBack_succ (size pos n : ℕ) :
    stepBack size pos (n + 1) = wrapDec size (stepBack size pos n) := by
  unfold stepBack
  rw [List.range_succ, List.foldl_append]
  rfl

theorem stepBack_spec (size : ℕ) (hs : 0 < size) :
    ∀ (n pos : ℕ), pos < size →
      stepBack size pos n = (((pos : ℤ) - (n : ℤ)) % (size : ℤ)).toNat := by
  intro n
  induction n with
  | zero =>
    intro pos hpos
    have h1 : ((pos : ℤ)) % (size : ℤ) = (pos : ℤ) :=
      Int.emod_eq_of_lt (by omega) (by exact_mod_cast hpos)
    simp [stepBack, h1]
  | succ n ih =>
    intro pos hpos
    rw [stepBack_succ]
    rw [ih pos hpos]
    have hlt : (((pos : ℤ) - (n : ℤ)) % (size : ℤ)).toNat < size := emod_toNat_lt _ _ hs
    rw [wrapDec_spec size _ hs hlt]
    rw [emod_toNat_cast _ _ hs]
    rw [emod_sub_congr]
    congr 1
    push_cast
    ring

theorem filter_sum_step_succ (buffer : ℕ → ℕ) (size pos n : ℕ) :
    filter_sum_step buffer size pos (n + 2)
      = (let st := filter_sum_step buffer size pos (n + 1)
         let p := wrapDec size st.2
         (st.1 + (buffer p : ℤ), p)) := by
  show (List.range (n + 1)).foldl _ _ = _
  rw [List.range_succ, List.foldl_append]
  rfl

theorem filter_sum_step_eq_aux (buffer : ℕ → ℕ) (size : ℕ) (hs : 0 < size) :
    ∀ (n pos : ℕ), pos < size →
      filter_sum_step buffer size pos (n + 1)
        = (lobeSum buffer size (n + 1) (pos : ℤ), (((pos : ℤ) - (n : ℤ)) % (size : ℤ)).toNat) := by
  intro n
  induction n with
  | zero =>
    intro pos hpos
    have hself : ((pos : ℤ)) % (size : ℤ) = (pos : ℤ) :=
      Int.emod_eq_of_lt (by omega) (by exact_mod_cast hpos)
    have h1 : filter_sum_step buffer size pos 1 = ((buffer pos : ℤ), pos) := by
      simp [filter_sum_step]
    rw [h1, Prod.mk.injEq]
    constructor
    · unfold lobeSum
      rw [Finset.sum_range_one]
      norm_num [hself]
    · rw [Nat.cast_zero, sub_zero, hself]
      omega
  | succ n ih =>
    intro pos hpos
    rw [filter_sum_step_succ]
    rw [ih pos hpos]
    have hlt : (((pos : ℤ) - (n : ℤ)) % (size : ℤ)).toNat < size := emod_toNat_lt _ _ hs
    have hwd : wrapDec size ((((pos : ℤ) - (n : ℤ)) % (size : ℤ)).toNat)
        = (((pos : ℤ) - ((n : ℤ) + 1)) % (size : ℤ)).toNat := by
      rw [wrapDec_spec size _ hs hlt, emod_toNat_cast _ _ hs, emod_sub_congr]
      congr 1
      ring
    have hcast : ((n + 1 : ℕ) : ℤ) = (n : ℤ) + 1 := by push_cast; ring
    simp only []
    rw [hwd, Prod.mk.injEq]
    constructor
    · unfold lobeSum
      conv_rhs => rw [Finset.sum_range_succ]
      rw [hcast]
    · rw [hcast]

theorem filter_sum_step_eq (buffer : ℕ → ℕ) (size pos R : ℕ)
    (hs : 0 < size) (hpos : pos < size) (hR : 1 ≤ R) :
    filter_sum_step buffer size pos R
      = (lobeSum buffer size R (pos : ℤ),
         (((pos : ℤ) - ((R : ℤ) - 1)) % (size : ℤ)).toNat) := by
  obtain ⟨n, rfl⟩ : ∃ n, R = n + 1 := ⟨R - 1, by omega⟩
  rw [filter_sum_step_eq_aux buffer size hs n pos hpos]
  congr 2
  push_cast
  ring

/-- Claim C9: `filter_sum_step` returns the sum of the `filter_rate` samples
at positions `pos, pos-1, ..., pos-(R-1)`, each reduced modulo
`buffer_size` (wrapping from `0` back to `buffer_size - 1`), and leaves the
position pointer at `(pos - (R-1)) mod buffer_size`. -/
theorem filter_sum_step_sums_backwards (buffer : ℕ → ℕ) (size pos R : ℕ)
    (hs : 1 ≤ size) (hpos : pos < size) (hR : 1 ≤ R) :
    (filter_sum_step buffer size pos R).1
        = ∑ j ∈ Finset.range R, (buffer (((pos : ℤ) - (j : ℤ)) % (size : ℤ)).toNat : ℤ) ∧
      (filter_sum_step buffer size pos R).2
        = (((pos : ℤ) - ((R : ℤ) - 1)) % (size : ℤ)).toNat := by
  rw [filter_sum_step_eq buffer size pos R hs hpos hR]
  exact ⟨rfl, rfl⟩

theorem filter_sum_step_sums_backwards_witness :
    1 ≤ 4 ∧ (1 : ℕ) < 4 ∧ 1 ≤ 3 ∧
      ((filter_sum_step (fun j => j + 1) 4 1 3).1
          = ∑ j ∈ Finset.range 3,
              ((((((1 : ℕ) : ℤ) - (j : ℤ)) % ((4 : ℕ) : ℤ)).toNat + 1 : ℕ) : ℤ) ∧
        (filter_sum_step (fun j => j + 1) 4 1 3).2
          = ((((1 : ℕ) : ℤ) - (((3 : ℕ) : ℤ) - 1)) % ((4 : ℕ) : ℤ)).toNat) :=
  ⟨by decide, by decide, by decide,
    filter_sum_step_sums_backwards (fun j => j + 1) 4 1 3 (by decide) (by decide) (by decide)⟩

theorem lobeSum_congr (buffer : ℕ → ℕ) (size R : ℕ) (p q : ℤ)
    (h : p % (size : ℤ) = q % (size : ℤ)) :
    lobeSum buffer size R p = lobeSum buffer size R q := by
  unfold lobeSum
  refine Finset.sum_congr rfl fun j _ => ?_
  congr 2
  rw [Int.sub_emod, h, ← Int.sub_emod]

theorem lobeSum_emod (buffer : ℕ → ℕ) (size R : ℕ) (p : ℤ) :
    lobeSum buffer size R (p % (size : ℤ)) = lobeSum buffer size R p :=
  lobeSum_congr buffer size R _ _ (Int.emod_emod_of_dvd p dvd_rfl)

theorem trap_filter_step_initialized (R L G : ℕ) (f : trap_filter_t) (buffer : ℕ → ℕ)
    (size pos : ℕ) :
    (trap_filter_step R L G f buffer size pos).2.initialized = true := by
  unfold trap_filter_step
  split <;> rfl

theorem trap_filter_step_value (R L G size pos : ℕ) (f : trap_filter_t) (buffer : ℕ → ℕ)
    (hinit : f.initialized = true) (hs : 0 < size) (hpos : pos < size)
    (hR : 1 ≤ R) (hRL : R ≤ L) (hRG : R ≤ G + 1) :
    (trap_filter_step R L G f buffer size pos).2.filter_value
      = f.filter_value + lobeSum buffer size R (pos : ℤ)
          - lobeSum buffer size R ((pos : ℤ) - (L : ℤ))
          - lobeSum buffer size R ((pos : ℤ) - (L : ℤ) - (G : ℤ))
          + lobeSum buffer size R ((pos : ℤ) - 2 * (L : ℤ) - (G : ℤ)) := by
  have hLshift : (((L : ℤ) - (R : ℤ) + 1).toNat : ℤ) = (L : ℤ) - (R : ℤ) + 1 :=
    Int.toNat_of_nonneg (by omega)
  have hGshift : (((G : ℤ) - (R : ℤ) + 1).toNat : ℤ) = (G : ℤ) - (R : ℤ) + 1 :=
    Int.toNat_of_nonneg (by omega)
  -- stage 1
  have e1 := filter_sum_step_eq buffer size pos R hs hpos hR
  have hq1lt : (((pos : ℤ) - ((R : ℤ) - 1)) % (size : ℤ)).toNat < size := emod_toNat_lt _ _ hs
  have hp1 : stepBack size ((((pos : ℤ) - ((R : ℤ) - 1)) % (size : ℤ)).toNat)
        (((L : ℤ) - (R : ℤ) + 1).toNat)
      = (((pos : ℤ) - (L : ℤ)) % (size : ℤ)).toNat := by
    rw [stepBack_spec size hs _ _ hq1lt, emod_toNat_cast _ _ hs, hLshift, emod_sub_congr]
    congr 1
    ring
  have hp1lt : (((pos : ℤ) - (L : ℤ)) % (size : ℤ)).toNat < size := emod_toNat_lt _ _ hs
  -- stage 2
  have e2 := filter_sum_step_eq buffer size ((((pos : ℤ) - (L : ℤ)) % (size : ℤ)).toNat) R hs hp1lt hR
  have he2v : lobeSum buffer size R (((((pos : ℤ) - (L : ℤ)) % (size : ℤ)).toNat : ℤ))
      = lobeSum buffer size R ((pos : ℤ) - (L : ℤ)) := by
    rw [emod_toNat_cast _ _ hs]
    exact lobeSum_emod buffer size R _
  have he2p : ((((((pos : ℤ) - (L : ℤ)) % (size : ℤ)).toNat : ℤ) - ((R : ℤ) - 1)) % (size : ℤ))
      = (((pos : ℤ) - (L : ℤ) - ((R : ℤ) - 1)) % (size : ℤ)) := by
    rw [emod_toNat_cast _ _ hs, emod_sub_congr]
  have hq2lt : ((((pos : ℤ) - (L : ℤ) - ((R : ℤ) - 1)) % (size : ℤ)).toNat) < size :=
    emod_toNat_lt _ _ hs
  have hp2 : stepBack size ((((pos : ℤ) - (L : ℤ) - ((R : ℤ) - 1)) % (size : ℤ)).toNat)
        (((G : ℤ) - (R : ℤ) + 1).toNat)
      = (((pos : ℤ) - (L : ℤ) - (G : ℤ)) % (size : ℤ)).toNat := by
    rw [stepBack_spec size hs _ _ hq2lt, emod_toNat_cast _ _ hs, hGshift, emod_sub_congr]
    congr 1
    ring
  have hp2lt : (((pos : ℤ) - (L : ℤ) - (G : ℤ)) % (size : ℤ)).toNat < size := emod_toNat_lt _ _ hs
  -- stage 3
  have e3 := filter_sum_step_eq buffer size ((((pos : ℤ) - (L : ℤ) - (G : ℤ)) % (size : ℤ)).toNat) R hs hp2lt hR
  have he3v : lobeSum buffer size R (((((pos : ℤ) - (L : ℤ) - (G : ℤ)) % (size : ℤ)).toNat : ℤ))
      = lobeSum buffer size R ((pos : ℤ) - (L : ℤ) - (G : ℤ)) := by
    rw [emod_toNat_cast _ _ hs]
    exact lobeSum_emod buffer size R _
  have he3p : ((((((pos : ℤ) - (L : ℤ) - (G : ℤ)) % (size : ℤ)).toNat : ℤ) - ((R : ℤ) - 1)) % (size : ℤ))
      = (((pos : ℤ) - (L : ℤ) - (G : ℤ) - ((R : ℤ) - 1)) % (size : ℤ)) := by
    rw [emod_toNat_cast _ _ hs, emod_sub_congr]
  have hq3lt : ((((pos : ℤ) - (L : ℤ) - (G : ℤ) - ((R : ℤ) - 1)) % (size : ℤ)).toNat) < size :=
    emod_toNat_lt _ _ hs
  have hp3 : stepBack size ((((pos : ℤ) - (L : ℤ) - (G : ℤ) - ((R : ℤ) - 1)) % (size : ℤ)).toNat)
        (((L : ℤ) - (R : ℤ) + 1).toNat)
      = (((pos : ℤ) - 2 * (L : ℤ) - (G : ℤ)) % (size : ℤ)).toNat := by
    rw [stepBack_spec size hs _ _ hq3lt, emod_toNat_cast _ _ hs, hLshift, emod_sub_congr]
    congr 1
    ring
  have hp3lt : (((pos : ℤ) - 2 * (L : ℤ) - (G : ℤ)) % (size : ℤ)).toNat < size :=
    emod_toNat_lt _ _ hs
  -- stage 4
  have e4 := filter_sum_step_eq buffer size ((((pos : ℤ) - 2 * (L : ℤ) - (G : ℤ)) % (size : ℤ)).toNat) R hs hp3lt hR
  have he4v : lobeSum buffer size R (((((pos : ℤ) - 2 * (L : ℤ) - (G : ℤ)) % (size : ℤ)).toNat : ℤ))
      = lobeSum buffer size R ((pos : ℤ) - 2 * (L : ℤ) - (G : ℤ)) := by
    rw [emod_toNat_cast _ _ hs]
    exact lobeSum_emod buffer size R _
  -- assemble
  unfold trap_filter_step
  rw [hinit]
  simp only [Bool.true_eq_false, if_false]
  rw [e1]
  simp only []
  rw [hp1, e2]
  simp only []
  rw [he2p, hp2, e3]
  simp only []
  rw [he3p, hp3, e4]
  simp only []
  rw [he2v, he3v, he4v]

theorem trap_run_zero (R L G : ℕ) (buffer : ℕ → ℕ) (size p0 : ℕ) :
    trap_run R L G buffer size p0 0
      = (trap_filter_step R L G trap_filter_init buffer size (p0 % size)).2 := rfl

theorem trap_run_succ (R L G : ℕ) (buffer : ℕ → ℕ) (size p0 n : ℕ) :
    trap_run R L G buffer size p0 (n + 1)
      = (trap_filter_step R L G (trap_run R L G buffer size p0 n) buffer size
          ((p0 + n + 1) % size)).2 := by
  unfold trap_run
  rw [List.range_succ, List.foldl_append]
  rfl

theorem trap_run_initialized (R L G : ℕ) (buffer : ℕ → ℕ) (size p0 n : ℕ) :
    (trap_run R L G buffer size p0 n).initialized = true := by
  cases n with
  | zero => rw [trap_run_zero]; exact trap_filter_step_initialized _ _ _ _ _ _ _
  | succ n => rw [trap_run_succ]; exact trap_filter_step_initialized _ _ _ _ _ _ _

theorem trap_run_zero_value (R L G : ℕ) (buffer : ℕ → ℕ) (size p0 : ℕ)
    (hs : 0 < size) (hR : 1 ≤ R) :
    (trap_run R L G buffer size p0 0).filter_value = lobeSum buffer size R (p0 : ℤ) := by
  rw [trap_run_zero]
  have hpos : p0 % size < size := Nat.mod_lt _ hs
  have hstep : (trap_filter_step R L G trap_filter_init buffer size (p0 % size)).2.filter_value
      = (filter_sum_step buffer size (p0 % size) R).1 := rfl
  rw [hstep, filter_sum_step_eq buffer size _ R hs hpos hR]
  show lobeSum buffer size R (((p0 % size : ℕ) : ℤ)) = lobeSum buffer size R (p0 : ℤ)
  rw [Int.natCast_mod]
  exact lobeSum_emod buffer size R _

theorem lobe_block_sub (R L : ℕ) (buffer : ℕ → ℕ) (size : ℕ) (p : ℤ) :
    (∑ q ∈ Finset.range L, lobeSum buffer size R (p - (q : ℤ)))
        - (∑ q ∈ Finset.range L, lobeSum buffer size R (p - 1 - (q : ℤ)))
      = lobeSum buffer size R p - lobeSum buffer size R (p - (L : ℤ)) := by
  have h1 : ∑ q ∈ Finset.range (L + 1), lobeSum buffer size R (p - (q : ℤ))
      = (∑ q ∈ Finset.range L, lobeSum buffer size R (p - (q : ℤ)))
          + lobeSum buffer size R (p - (L : ℤ)) := by
    rw [Finset.sum_range_succ]
  have h2 : ∑ q ∈ Finset.range (L + 1), lobeSum buffer size R (p - (q : ℤ))
      = (∑ q ∈ Finset.range L, lobeSum buffer size R (p - 1 - (q : ℤ)))
          + lobeSum buffer size R p := by
    rw [Finset.sum_range_succ']
    congr 1
    · refine Finset.sum_congr rfl fun q _ => ?_
      congr 1
      push_cast
      ring
    · congr 1
      push_cast
      ring
  have h3 := h1.symm.trans h2
  linarith [h3]

theorem trap_brute_sub_one (R L G : ℕ) (buffer : ℕ → ℕ) (size : ℕ) (p : ℤ) :
    trap_brute R L G buffer size p - trap_brute R L G buffer size (p - 1)
      = lobeSum buffer size R p - lobeSum buffer size R (p - (L : ℤ))
          - lobeSum buffer size R (p - (L : ℤ) - (G : ℤ))
          + lobeSum buffer size R (p - 2 * (L : ℤ) - (G : ℤ)) := by
  unfold trap_brute
  have hA := lobe_block_sub R L buffer size p
  have hB := lobe_block_sub R L buffer size (p - (L : ℤ) - (G : ℤ))
  have hC : (∑ q ∈ Finset.range L, lobeSum buffer size R (p - 1 - (L : ℤ) - (G : ℤ) - (q : ℤ)))
      = ∑ q ∈ Finset.range L, lobeSum buffer size R (p - (L : ℤ) - (G : ℤ) - 1 - (q : ℤ)) := by
    refine Finset.sum_congr rfl fun q _ => ?_
    congr 1
    ring
  have hD : lobeSum buffer size R (p - (L : ℤ) - (G : ℤ) - (L : ℤ))
      = lobeSum buffer size R (p - 2 * (L : ℤ) - (G : ℤ)) := by
    congr 1
    ring
  rw [hC] at *
  rw [hD] at hB
  linarith [hA, hB]

/-- Claim C3 amended: the incremental running value is the from-scratch
trapezoidal combination of the raw buffer contents only up to a constant
offset fixed at initialization.  After initializing at position `p0` and
performing `n` per-sample updates, the running value equals
`trap_brute (p0 + n)` plus the startup discrepancy
`lobeSum p0 - trap_brute p0` (the first call seeds the accumulator with a
single `R`-sample sum, not with the full trapezoid), so bit-for-bit
agreement with a from-scratch recomputation holds exactly when that
startup discrepancy is zero — not in general. -/
theorem trap_incremental_eq_brute_plus_offset (R L G size p0 n : ℕ) (buffer : ℕ → ℕ)
    (hR : 1 ≤ R) (hRL : R ≤ L) (hRG : R ≤ G + 1) (hs : 0 < size) :
    (trap_run R L G buffer size p0 n).filter_value
      = trap_brute R L G buffer size ((p0 : ℤ) + (n : ℤ))
          + (lobeSum buffer size R (p0 : ℤ) - trap_brute R L G buffer size (p0 : ℤ)) := by
  induction n with
  | zero =>
    rw [trap_run_zero_value R L G buffer size p0 hs hR]
    norm_num
  | succ n ih =>
    rw [trap_run_succ]
    have hpos : (p0 + n + 1) % size < size := Nat.mod_lt _ hs
    rw [trap_filter_step_value R L G size ((p0 + n + 1) % size) _ buffer
      (trap_run_initialized R L G buffer size p0 n) hs hpos hR hRL hRG]
    have hx : (((p0 + n + 1) % size : ℕ) : ℤ) % (size : ℤ) = ((p0 : ℤ) + (n : ℤ) + 1) % (size : ℤ) := by
      rw [Int.natCast_mod]
      rw [Int.emod_emod_of_dvd _ dvd_rfl]
      congr 1
    have d1 : lobeSum buffer size R (((p0 + n + 1) % size : ℕ) : ℤ)
        = lobeSum buffer size R ((p0 : ℤ) + (n : ℤ) + 1) :=
      lobeSum_congr buffer size R _ _ hx
    have dsub : ∀ c : ℤ,
        lobeSum buffer size R ((((p0 + n + 1) % size : ℕ) : ℤ) - c)
          = lobeSum buffer size R ((p0 : ℤ) + (n : ℤ) + 1 - c) := by
      intro c
      refine lobeSum_congr buffer size R _ _ ?_
      rw [Int.sub_emod, hx, ← Int.sub_emod]
    have d2 := dsub ((L : ℤ))
    have d3 : lobeSum buffer size R ((((p0 + n + 1) % size : ℕ) : ℤ) - (L : ℤ) - (G : ℤ))
        = lobeSum buffer size R ((p0 : ℤ) + (n : ℤ) + 1 - (L : ℤ) - (G : ℤ)) := by
      have := dsub ((L : ℤ) + (G : ℤ))
      have e1 : (((p0 + n + 1) % size : ℕ) : ℤ) - ((L : ℤ) + (G : ℤ))
          = (((p0 + n + 1) % size : ℕ) : ℤ) - (L : ℤ) - (G : ℤ) := by ring
      have e2 : (p0 : ℤ) + (n : ℤ) + 1 - ((L : ℤ) + (G : ℤ))
          = (p0 : ℤ) + (n : ℤ) + 1 - (L : ℤ) - (G : ℤ) := by ring
      rw [e1, e2] at this
      exact this
    have d4 : lobeSum buffer size R ((((p0 + n + 1) % size : ℕ) : ℤ) - 2 * (L : ℤ) - (G : ℤ))
        = lobeSum buffer size R ((p0 : ℤ) + (n : ℤ) + 1 - 2 * (L : ℤ) - (G : ℤ)) := by
      have := dsub (2 * (L : ℤ) + (G : ℤ))
      have e1 : (((p0 + n + 1) % size : ℕ) : ℤ) - (2 * (L : ℤ) + (G : ℤ))
          = (((p0 + n + 1) % size : ℕ) : ℤ) - 2 * (L : ℤ) - (G : ℤ) := by ring
      have e2 : (p0 : ℤ) + (n : ℤ) + 1 - (2 * (L : ℤ) + (G : ℤ))
          = (p0 : ℤ) + (n : ℤ) + 1 - 2 * (L : ℤ) - (G : ℤ) := by ring
      rw [e1, e2] at this
      exact this
    rw [d1, d2, d3, d4, ih]
    have htel := trap_brute_sub_one R L G buffer size ((p0 : ℤ) + (n : ℤ) + 1)
    have hsub1 : (p0 : ℤ) + (n : ℤ) + 1 - 1 = (p0 : ℤ) + (n : ℤ) := by ring
    rw [hsub1] at htel
    have hcast : (((n : ℕ) + 1 : ℕ) : ℤ) = (n : ℤ) + 1 := by push_cast; ring
    rw [hcast]
    have hgoalcast : (p0 : ℤ) + ((n : ℤ) + 1) = (p0 : ℤ) + (n : ℤ) + 1 := by ring
    rw [hgoalcast]
    linarith [htel]

/-- Counterexample to claim C3: with shape `R = 1, L = 1, G = 1` on a size-8
buffer holding `1,0,0,0,0,0,0,0`, initializing at write position 2 and
performing one per-sample update leaves the running value at `1`, while the
from-scratch trapezoidal recomputation at the same position is `0` — the
incremental value and the brute-force value differ bit for bit because the
startup seeds only a single `R`-sample sum. -/
theorem trap_incremental_ne_brute_cex :
    (trap_run 1 1 1 (fun j => if j = 0 then 1 else 0) 8 2 1).filter_value
      ≠ trap_brute 1 1 1 (fun j => if j = 0 then 1 else 0) 8 (((2 : ℕ) : ℤ) + ((1 : ℕ) : ℤ)) := by
  decide

theorem trap_incremental_eq_brute_plus_offset_witness :
    1 ≤ 1 ∧ (1 : ℕ) ≤ 1 ∧ (1 : ℕ) ≤ 1 + 1 ∧ 0 < 8 ∧
      (trap_run 1 1 1 (fun j => if j = 0 then 1 else 0) 8 2 1).filter_value
        = trap_brute 1 1 1 (fun j => if j = 0 then 1 else 0) 8 (((2 : ℕ) : ℤ) + ((1 : ℕ) : ℤ))
            + (lobeSum (fun j => if j = 0 then 1 else 0) 8 1 ((2 : ℕ) : ℤ)
                - trap_brute 1 1 1 (fun j => if j = 0 then 1 else 0) 8 ((2 : ℕ) : ℤ)) :=
  ⟨by decide, by decide, by decide, by decide,
    trap_incremental_eq_brute_plus_offset 1 1 1 8 2 1 (fun j => if j = 0 then 1 else 0)
      (by decide) (by decide) (by decide) (by decide)⟩

theorem toNat_mod_eq (a : ℤ) (M : ℕ) (ha : 0 ≤ a) :
    a.toNat % M = (a % (M : ℤ)).toNat := by
  have h1 : ((a.toNat % M : ℕ) : ℤ) = a % (M : ℤ) := by
    rw [Int.natCast_mod, Int.toNat_of_nonneg ha]
  have h2 : 0 ≤ a % (M : ℤ) := by
    rcases eq_or_ne (M : ℤ) 0 with h | h
    · rw [h, Int.emod_zero]; exact ha
    · exact Int.emod_nonneg a h
  omega

theorem exportStart_eq (m : ℕ) (hm : m ≤ 64) (cur pre : ℕ) :
    exportStart (2 ^ m) cur pre = (((cur : ℤ) - (pre : ℤ)) % ((2 ^ m : ℕ) : ℤ)).toNat := by
  unfold exportStart size_t_sub SIZE_T_MOD
  rw [mask_eq_mod]
  have hpos : (0 : ℤ) < ((2 ^ 64 : ℕ) : ℤ) := by positivity
  have hnn : 0 ≤ ((cur : ℤ) - (pre : ℤ)) % ((2 ^ 64 : ℕ) : ℤ) :=
    Int.emod_nonneg _ (ne_of_gt hpos)
  rw [toNat_mod_eq _ _ hnn]
  congr 1
  have hdvd : ((2 ^ m : ℕ) : ℤ) ∣ ((2 ^ 64 : ℕ) : ℤ) :=
    Int.natCast_dvd_natCast.mpr (pow_dvd_pow 2 hm)
  exact Int.emod_emod_of_dvd _ hdvd

theorem natMod_of_castMod (a b M : ℕ)
    (hcast : ((a : ℤ) % (M : ℤ)) = ((b : ℤ) % (M : ℤ))) : a % M = b % M := by
  refine Int.natCast_inj.mp ?_
  rw [Int.natCast_mod, Int.natCast_mod, hcast]

theorem export_slot_eq (m : ℕ) (hm : m ≤ 64) (k pre i : ℕ) (hk : pre ≤ k) :
    (exportStart (2 ^ m) (k % 2 ^ m) pre + i) &&& (2 ^ m - 1) = (k - pre + i) % 2 ^ m := by
  rw [mask_eq_mod, exportStart_eq m hm]
  have hNpos : (0 : ℤ) < ((2 ^ m : ℕ) : ℤ) := by positivity
  have hsnn : 0 ≤ (((k % 2 ^ m : ℕ) : ℤ) - (pre : ℤ)) % ((2 ^ m : ℕ) : ℤ) :=
    Int.emod_nonneg _ (ne_of_gt hNpos)
  refine natMod_of_castMod _ _ _ ?_
  calc (((((((k % 2 ^ m : ℕ) : ℤ) - (pre : ℤ)) % ((2 ^ m : ℕ) : ℤ)).toNat + i : ℕ)) : ℤ)
        % ((2 ^ m : ℕ) : ℤ)
      = (((((k % 2 ^ m : ℕ) : ℤ) - (pre : ℤ)) % ((2 ^ m : ℕ) : ℤ)) + (i : ℤ))
        % ((2 ^ m : ℕ) : ℤ) := by
        rw [Nat.cast_add, Int.toNat_of_nonneg hsnn]
    _ = ((((k % 2 ^ m : ℕ) : ℤ) - (pre : ℤ)) + (i : ℤ)) % ((2 ^ m : ℕ) : ℤ) := by
        rw [emod_add_congr]
    _ = (((k : ℤ) % ((2 ^ m : ℕ) : ℤ)) + (-(pre : ℤ) + (i : ℤ))) % ((2 ^ m : ℕ) : ℤ) := by
        rw [Int.natCast_mod]
        congr 1
        ring
    _ = ((k : ℤ) + (-(pre : ℤ) + (i : ℤ))) % ((2 ^ m : ℕ) : ℤ) := by
        rw [emod_add_congr]
    _ = ((k - pre + i : ℕ) : ℤ) % ((2 ^ m : ℕ) : ℤ) := by
        congr 1
        rw [Nat.cast_add, Nat.cast_sub hk]
        ring

/-- Counterexample to claim C1: the spec's own scenario — capacity `N = 16`,
history `0..31` written (16 wraps, snapshot `W = 32 & 15 = 0`), export with
`pre = 4, post = 4`.  The claimed logical subsequence `[W-4, W+4)` would be
`28..35`, but the code copies buffer slots, and the slots at and after the
snapshot hold the oldest retained lap: the export is
`[28, 29, 30, 31, 16, 17, 18, 19]`. -/
theorem export_not_logical_window_cex :
    export_circular_buffer 16 (bufAfter 16 (fun t => t) 32).1
        (bufAfter 16 (fun t => t) 32).2 4 (4 + 4)
      ≠ (List.range (4 + 4)).map (fun i => 32 - 4 + i) := by
  decide

/-- Claim C1 amended: for `pre + post ≤ N` and at least one full lap of
history (`N ≤ k`, snapshot `W = k`), the export computes
`start = (W - pre) & (N-1)` from the snapshot and copies `pre + post`
consecutive masked slots — but a slot holds the *most recent* value written
to it, so the result equals the logical subsequence `[W-pre, W)` of the
history followed by the *oldest retained* samples `[W-N, W-N+post)`, not
`[W-pre, W+post)`; the two agree only when `post = 0` (the samples at
logical positions `≥ W` do not exist at the snapshot). -/
theorem export_window_contents (m k pre post : ℕ) (h : ℕ → ℕ)
    (hm : m ≤ 64) (hk : 2 ^ m ≤ k) (hpp : pre + post ≤ 2 ^ m) :
    export_circular_buffer (2 ^ m) (bufAfter (2 ^ m) h k).1 (bufAfter (2 ^ m) h k).2
        pre (pre + post)
      = (List.range pre).map (fun i => h (k - pre + i))
        ++ (List.range post).map (fun i => h (k - 2 ^ m + i)) := by
  have hNpos : 0 < 2 ^ m := Nat.two_pow_pos' m
  have hcur : (bufAfter (2 ^ m) h k).2 = k % 2 ^ m := (bufAfter_spec m k h).1
  have hcont := (bufAfter_spec m k h).2
  have hpre_k : pre ≤ k := by omega
  rw [hcur]
  unfold export_circular_buffer
  rw [min_eq_left hpp]
  apply List.ext_getElem
  · simp
  · intro i hi1 hi2
    have hi : i < pre + post := by simpa using hi1
    rw [List.getElem_map, List.getElem_range, export_slot_eq m hm k pre i hpre_k]
    rcases lt_or_ge i pre with hcase | hcase
    · have hj : pre - 1 - i < min k (2 ^ m) := by omega
      have hv := hcont (pre - 1 - i) hj
      have hidx : k - 1 - (pre - 1 - i) = k - pre + i := by omega
      rw [hidx] at hv
      rw [hv]
      rw [List.getElem_append]
      have hlen : i < ((List.range pre).map (fun i => h (k - pre + i))).length := by
        simpa using hcase
      rw [dif_pos hlen, List.getElem_map, List.getElem_range]
    · have hrw : k - pre + i = (k - 2 ^ m + (i - pre)) + 2 ^ m := by omega
      rw [hrw, Nat.add_mod_right]
      have hj : 2 ^ m - 1 - (i - pre) < min k (2 ^ m) := by omega
      have hv := hcont (2 ^ m - 1 - (i - pre)) hj
      have hidx : k - 1 - (2 ^ m - 1 - (i - pre)) = k - 2 ^ m + (i - pre) := by omega
      rw [hidx] at hv
      rw [hv]
      rw [List.getElem_append]
      have hlen : ¬ i < ((List.range pre).map (fun i => h (k - pre + i))).length := by
        simpa using not_lt.mpr hcase
      rw [dif_neg hlen, List.getElem_map, List.getElem_range]
      congr 1
      simp

theorem export_window_contents_witness :
    2 ≤ 64 ∧ 2 ^ 2 ≤ 4 ∧ 1 + 1 ≤ 2 ^ 2 ∧
      export_circular_buffer (2 ^ 2) (bufAfter (2 ^ 2) (fun t => t) 4).1
          (bufAfter (2 ^ 2) (fun t => t) 4).2 1 (1 + 1)
        = (List.range 1).map (fun i => 4 - 1 + i)
          ++ (List.range 1).map (fun i => 4 - 2 ^ 2 + i) :=
  ⟨by decide, by decide, by decide,
    export_window_contents 2 4 1 1 (fun t => t) (by decide) (by decide) (by decide)⟩
